import Mathlib

/-!
Formal model of the CSV report pipeline (chunked reader/joiner, rule engine,
parallel orchestrator) and proofs of the specified properties.

Cell values of a tabular chunk: a cell is either a null marker (pandas NaN),
an integer, or a string.
-/

set_option autoImplicit false

inductive Value : Type
  | null : Value
  | int : Int → Value
  | str : String → Value
  deriving DecidableEq, Repr

/-- Rows of a data chunk, as an ordered association list from column name to
cell value (the column order of the underlying DataFrame row). -/
abbrev Row : Type := List (String × Value)

/-- Column names of a row, in order. -/
def rowKeys (r : Row) : List String := r.map Prod.fst

/-- First-match lookup of a column value in a row. -/
def lookupVal : Row → String → Option Value
  | [], _ => none
  | (k, v) :: r, c => if k = c then some v else lookupVal r c

/-! ## Chunked reader / joiner (src/app/services/parser.py, CSVParser)

`pd.merge(input_chunk, ref_df, left_on=keys, right_on=vals, how="left")`:
a left outer equi-join.  `pd.merge` treats NaN as an ordinary join value:
a NaN key in the input matches NaN keys in the reference. -/

/-- Equality test used on join keys: plain value equality, with null (NaN)
matching null, as `pd.merge` joins NaN keys with NaN keys. -/
def keyEq (v w : Value) : Bool := decide (v = w)

/-- One input row matches one reference row when every ordered key pair of the
join specification resolves in both rows to `keyEq`-equal values. -/
def keyMatches (jk : List (String × String)) (inRow refRow : Row) : Bool :=
  jk.all fun p =>
    match lookupVal inRow p.1, lookupVal refRow p.2 with
    | some v, some w => keyEq v w
    | _, _ => false

/-- Reference-schema row of all nulls, used for unmatched input rows. -/
def nullRefRow (refCols : List String) : Row := refCols.map fun c => (c, Value.null)

/-- Left-join expansion of a single input row: one output row per matching
reference row, or a single null-extended row when nothing matches. -/
def mergeOneRow (jk : List (String × String)) (refRows : List Row)
    (refCols : List String) (r : Row) : List Row :=
  if (refRows.filter fun rr => keyMatches jk r rr).isEmpty then [r ++ nullRefRow refCols]
  else (refRows.filter fun rr => keyMatches jk r rr).map fun rr => r ++ rr

/-- Left outer equi-join of an input chunk against the loaded reference rows. -/
def leftMerge (jk : List (String × String)) (refRows : List Row)
    (refCols : List String) (chunk : List Row) : List Row :=
  chunk.flatMap (mergeOneRow jk refRows refCols)

/-- Column names of a chunk of rows (the schema, read off the first row). -/
def chunkColumns (c : List Row) : List String := rowKeys (c.headD [])

/-- Model of `CSVParser.process_in_chunks` (parser.py lines 113-154) after the
reference file has been loaded.  `mergeFn` stands for the `pd.merge` call of
lines 130-136; a `none` result models the merge raising an exception, which
the source catches at line 138 and answers with `continue` (the chunk is
dropped).  Empty chunks are skipped (line 117); chunks missing an input join
key are passed through unjoined (lines 122-127). -/
def process_in_chunks (mergeFn : List Row → Option (List Row)) (hasRef : Bool)
    (jk : List (String × String)) (chunks : List (List Row)) : List (List Row) :=
  chunks.flatMap fun c =>
    if c.isEmpty then []
    else if hasRef && !jk.isEmpty then
      if jk.any (fun p => !(chunkColumns c).contains p.1) then [c]
      else
        match mergeFn c with
        | some m => [m]
        | none => []
    else [c]

/-! Basic lookup lemmas for rows. -/

theorem lookupVal_append_left {r s : Row} {c : String} (h : c ∈ rowKeys r) :
    lookupVal (r ++ s) c = lookupVal r c := by
  induction r with
  | nil => simp [rowKeys] at h
  | cons p r ih =>
    simp only [rowKeys, List.map_cons, List.mem_cons] at h
    simp only [List.cons_append, lookupVal]
    by_cases hk : p.1 = c
    · simp [hk]
    · have hc : c ∈ rowKeys r := by
        rcases h with h | h
        · exact absurd h.symm hk
        · simpa [rowKeys] using h
      simp only [hk, if_false]
      exact ih hc

theorem lookupVal_append_right {r s : Row} {c : String} (h : c ∉ rowKeys r) :
    lookupVal (r ++ s) c = lookupVal s c := by
  induction r with
  | nil => rfl
  | cons p r ih =>
    simp only [rowKeys, List.map_cons, List.mem_cons] at h
    push_neg at h
    have h1 : ¬ p.1 = c := fun hh => h.1 hh.symm
    simp only [List.cons_append, lookupVal, if_neg h1]
    exact ih (by simpa [rowKeys] using h.2)

theorem lookupVal_nullRefRow {refCols : List String} {c : String} (h : c ∈ refCols) :
    lookupVal (nullRefRow refCols) c = some Value.null := by
  induction refCols with
  | nil => simp at h
  | cons d refCols ih =>
    simp only [nullRefRow, List.map_cons, lookupVal]
    by_cases hd : d = c
    · simp [hd]
    · simp only [hd, if_false]
      rcases List.mem_cons.mp h with h | h
      · exact absurd h.symm hd
      · exact ih h

theorem mergeOneRow_ne_nil (jk : List (String × String)) (refRows : List Row)
    (refCols : List String) (r : Row) : mergeOneRow jk refRows refCols r ≠ [] := by
  unfold mergeOneRow
  by_cases h : (refRows.filter fun rr => keyMatches jk r rr).isEmpty = true
  · rw [if_pos h]
    simp
  · rw [if_neg h]
    intro hc
    rw [List.map_eq_nil_iff] at hc
    rw [hc] at h
    exact h rfl

theorem process_in_chunks_append (mergeFn : List Row → Option (List Row))
    (hasRef : Bool) (jk : List (String × String)) (l1 l2 : List (List Row)) :
    process_in_chunks mergeFn hasRef jk (l1 ++ l2) =
      process_in_chunks mergeFn hasRef jk l1 ++ process_in_chunks mergeFn hasRef jk l2 := by
  unfold process_in_chunks
  exact List.flatMap_append l1 l2 _

theorem process_in_chunks_merged (mergeFn : List Row → Option (List Row))
    (jk : List (String × String)) (c : List Row)
    (hjk : jk ≠ []) (hc : c ≠ [])
    (hpresent : ∀ p ∈ jk, (chunkColumns c).contains p.1 = true) :
    process_in_chunks mergeFn true jk [c] =
      (match mergeFn c with | some m => [m] | none => []) := by
  have hce : c.isEmpty = false := by
    cases c with
    | nil => exact absurd rfl hc
    | cons x xs => rfl
  have hjke : jk.isEmpty = false := by
    cases jk with
    | nil => exact absurd rfl hjk
    | cons x xs => rfl
  have hany : (jk.any fun p => !(chunkColumns c).contains p.1) = false := by
    rw [List.any_eq_false]
    intro p hp
    rw [hpresent p hp]
    simp
  have h1 : ¬ (c.isEmpty = true) := by rw [hce]; simp
  have h2 : (true && !jk.isEmpty) = true := by rw [hjke]; rfl
  have h3 : ¬ ((jk.any fun p => !(chunkColumns c).contains p.1) = true) := by
    rw [hany]; simp
  unfold process_in_chunks
  rw [List.flatMap_cons, List.flatMap_nil, List.append_nil, if_neg h1, if_pos h2, if_neg h3]

/-- C1: joining an input chunk against the fully loaded reference dataset under
a join specification whose key columns are all present is a left outer
equi-join: `process_in_chunks` yields exactly the merged chunk, the merge
expands each input row independently, each input row produces one output row
per matching reference row and exactly one null-extended row when nothing
matches, no input row is dropped, and every surviving row keeps all input
column values unchanged. -/
theorem C1_left_join_semantics
    (mergeFn : List Row → Option (List Row))
    (jk : List (String × String)) (refRows : List Row) (refCols : List String)
    (chunk : List Row) (r : Row)
    (hjk : jk ≠ [])
    (hr : r ∈ chunk)
    (hpresent : ∀ p ∈ jk, (chunkColumns chunk).contains p.1 = true)
    (hmerge : mergeFn = fun c => some (leftMerge jk refRows refCols c)) :
    process_in_chunks mergeFn true jk [chunk] = [leftMerge jk refRows refCols chunk]
    ∧ leftMerge jk refRows refCols chunk = chunk.flatMap (mergeOneRow jk refRows refCols)
    ∧ (mergeOneRow jk refRows refCols r).length =
        (if (refRows.filter fun rr => keyMatches jk r rr).isEmpty then 1
         else (refRows.filter fun rr => keyMatches jk r rr).length)
    ∧ mergeOneRow jk refRows refCols r ≠ []
    ∧ (∀ o ∈ mergeOneRow jk refRows refCols r, ∀ c ∈ rowKeys r,
        lookupVal o c = lookupVal r c)
    ∧ ((refRows.filter fun rr => keyMatches jk r rr).isEmpty →
        mergeOneRow jk refRows refCols r = [r ++ nullRefRow refCols]
        ∧ ∀ c ∈ refCols, c ∉ rowKeys r →
            lookupVal (r ++ nullRefRow refCols) c = some Value.null)
    ∧ (¬ (refRows.filter fun rr => keyMatches jk r rr).isEmpty →
        mergeOneRow jk refRows refCols r =
          (refRows.filter fun rr => keyMatches jk r rr).map fun rr => r ++ rr) := by
  have hc : chunk ≠ [] := List.ne_nil_of_mem hr
  refine ⟨?_, rfl, ?_, mergeOneRow_ne_nil jk refRows refCols r, ?_, ?_, ?_⟩
  · rw [process_in_chunks_merged mergeFn jk chunk hjk hc hpresent, hmerge]
  · unfold mergeOneRow
    by_cases h : (refRows.filter fun rr => keyMatches jk r rr).isEmpty = true
    · rw [if_pos h, if_pos h]
      rfl
    · rw [if_neg h, if_neg h, List.length_map]
  · intro o ho c hcr
    unfold mergeOneRow at ho
    by_cases h : (refRows.filter fun rr => keyMatches jk r rr).isEmpty = true
    · rw [if_pos h, List.mem_singleton] at ho
      rw [ho]
      exact lookupVal_append_left hcr
    · rw [if_neg h, List.mem_map] at ho
      obtain ⟨rr, _, hrr⟩ := ho
      rw [← hrr]
      exact lookupVal_append_left hcr
  · intro h
    constructor
    · unfold mergeOneRow
      rw [if_pos h]
    · intro c hcref hcr
      rw [lookupVal_append_right hcr]
      exact lookupVal_nullRefRow hcref
  · intro h
    unfold mergeOneRow
    rw [if_neg h]

def jkW : List (String × String) := [("k", "k")]

def refColsW : List String := ["k", "v"]

def refRowsW : List Row :=
  [[("k", Value.int 1), ("v", Value.int 10)],
   [("k", Value.int 1), ("v", Value.int 20)],
   [("k", Value.int 2), ("v", Value.int 30)],
   [("k", Value.null), ("v", Value.int 40)]]

def chunkW : List Row := [[("k", Value.int 1)], [("k", Value.null)], [("k", Value.int 3)]]

def rW : Row := [("k", Value.null)]

def mergeFnW : List Row → Option (List Row) :=
  fun c => some (leftMerge jkW refRowsW refColsW c)

/-- Witness for C1 at a concrete chunk and reference dataset (the row with key
1 fans out to two matches, the row with a null key matches the null-keyed
reference row as `pd.merge` does, and the row with key 3 is null-extended). -/
theorem C1_left_join_semantics_witness :
    jkW ≠ [] ∧ rW ∈ chunkW
    ∧ (∀ p ∈ jkW, (chunkColumns chunkW).contains p.1 = true)
    ∧ (process_in_chunks mergeFnW true jkW [chunkW] = [leftMerge jkW refRowsW refColsW chunkW]
    ∧ leftMerge jkW refRowsW refColsW chunkW = chunkW.flatMap (mergeOneRow jkW refRowsW refColsW)
    ∧ (mergeOneRow jkW refRowsW refColsW rW).length =
        (if (refRowsW.filter fun rr => keyMatches jkW rW rr).isEmpty then 1
         else (refRowsW.filter fun rr => keyMatches jkW rW rr).length)
    ∧ mergeOneRow jkW refRowsW refColsW rW ≠ []
    ∧ (∀ o ∈ mergeOneRow jkW refRowsW refColsW rW, ∀ c ∈ rowKeys rW,
        lookupVal o c = lookupVal rW c)
    ∧ ((refRowsW.filter fun rr => keyMatches jkW rW rr).isEmpty →
        mergeOneRow jkW refRowsW refColsW rW = [rW ++ nullRefRow refColsW]
        ∧ ∀ c ∈ refColsW, c ∉ rowKeys rW →
            lookupVal (rW ++ nullRefRow refColsW) c = some Value.null)
    ∧ (¬ (refRowsW.filter fun rr => keyMatches jkW rW rr).isEmpty →
        mergeOneRow jkW refRowsW refColsW rW =
          (refRowsW.filter fun rr => keyMatches jkW rW rr).map fun rr => rW ++ rr)) :=
  ⟨by decide, by decide, by decide,
   C1_left_join_semantics mergeFnW jkW refRowsW refColsW chunkW rW
     (by decide) (by decide) (by decide) rfl⟩

/-- C10: when the merge of one chunk against the reference data fails (raises),
that chunk is dropped entirely from the output stream, while the chunks before
and after it are processed normally. -/
theorem C10_failed_merge_drops_chunk
    (mergeFn : List Row → Option (List Row))
    (jk : List (String × String)) (pre post : List (List Row)) (c : List Row)
    (hjk : jk ≠ []) (hc : c ≠ [])
    (hpresent : ∀ p ∈ jk, (chunkColumns c).contains p.1 = true)
    (hfail : mergeFn c = none) :
    process_in_chunks mergeFn true jk (pre ++ c :: post) =
      process_in_chunks mergeFn true jk pre ++ process_in_chunks mergeFn true jk post
    ∧ process_in_chunks mergeFn true jk [c] = [] := by
  have hsingle : process_in_chunks mergeFn true jk [c] = [] := by
    rw [process_in_chunks_merged mergeFn jk c hjk hc hpresent, hfail]
  constructor
  · have : pre ++ c :: post = pre ++ [c] ++ post := by simp
    rw [this, process_in_chunks_append, process_in_chunks_append, hsingle,
      List.append_nil]
  · exact hsingle

def failFn : List Row → Option (List Row) := fun _ => none

def preW : List (List Row) := [[[("k", Value.int 7)]]]

def postW : List (List Row) := [[[("k", Value.int 8)]]]

def cW : List Row := [[("k", Value.int 9)]]

/-- Witness for C10: a merge that always fails drops the middle chunk and
keeps streaming the surrounding chunks (which are passed through, since the
merge is not reached for them in this instantiation only through failure). -/
theorem C10_failed_merge_drops_chunk_witness :
    jkW ≠ [] ∧ cW ≠ []
    ∧ (∀ p ∈ jkW, (chunkColumns cW).contains p.1 = true)
    ∧ failFn cW = none
    ∧ (process_in_chunks failFn true jkW (preW ++ cW :: postW) =
        process_in_chunks failFn true jkW preW ++ process_in_chunks failFn true jkW postW
    ∧ process_in_chunks failFn true jkW [cW] = []) :=
  ⟨by decide, by decide, by decide, rfl,
   C10_failed_merge_drops_chunk failFn jkW preW postW cW
     (by decide) (by decide) (by decide) rfl⟩

/-! ## Rule engine (src/app/services/transformer.py, RuleEngine)

`apply_rules` evaluates each rule expression with Python `eval` over a
namespace holding the accumulated DataFrame columns plus the builtins
`max`/`min`/`sum`/`abs`/`round` (numpy element-wise forms).  The expression
language is modelled by the `RExpr` fragment below: numeric literals, column
references, the arithmetic operators and the element-wise binary `max`.
Evaluation is element-wise over the chunk; a missing column reference is a
`NameError`, mixed-type arithmetic is a `TypeError`, and null (NaN)
propagates through numeric operations without raising. -/

inductive RExpr : Type
  | lit : Int → RExpr
  | col : String → RExpr
  | add : RExpr → RExpr → RExpr
  | sub : RExpr → RExpr → RExpr
  | mul : RExpr → RExpr → RExpr
  | emax : RExpr → RExpr → RExpr
  deriving DecidableEq, Repr

/-- Column names referenced by an expression. -/
def exprRefs : RExpr → List String
  | RExpr.lit _ => []
  | RExpr.col c => [c]
  | RExpr.add a b => exprRefs a ++ exprRefs b
  | RExpr.sub a b => exprRefs a ++ exprRefs b
  | RExpr.mul a b => exprRefs a ++ exprRefs b
  | RExpr.emax a b => exprRefs a ++ exprRefs b

/-- Element-wise addition: ints add, null propagates over numbers, strings
concatenate, and any other mix is a TypeError. -/
def addVal : Value → Value → Except String Value
  | Value.int a, Value.int b => Except.ok (Value.int (a + b))
  | Value.null, Value.int _ => Except.ok Value.null
  | Value.int _, Value.null => Except.ok Value.null
  | Value.null, Value.null => Except.ok Value.null
  | Value.str a, Value.str b => Except.ok (Value.str (a ++ b))
  | _, _ => Except.error "TypeError"

/-- Element-wise subtraction: ints subtract, null propagates over numbers,
strings do not support subtraction. -/
def subVal : Value → Value → Except String Value
  | Value.int a, Value.int b => Except.ok (Value.int (a - b))
  | Value.null, Value.int _ => Except.ok Value.null
  | Value.int _, Value.null => Except.ok Value.null
  | Value.null, Value.null => Except.ok Value.null
  | _, _ => Except.error "TypeError"

/-- Element-wise multiplication: ints multiply, null propagates over numbers,
a string times an int repeats the string (Python semantics), any other mix is
a TypeError. -/
def mulVal : Value → Value → Except String Value
  | Value.int a, Value.int b => Except.ok (Value.int (a * b))
  | Value.null, Value.int _ => Except.ok Value.null
  | Value.int _, Value.null => Except.ok Value.null
  | Value.null, Value.null => Except.ok Value.null
  | Value.str s, Value.int n => Except.ok (Value.str (String.join (List.replicate n.toNat s)))
  | Value.int n, Value.str s => Except.ok (Value.str (String.join (List.replicate n.toNat s)))
  | _, _ => Except.error "TypeError"

/-- Element-wise binary maximum (`np.maximum`): NaN propagates, strings
compare lexicographically, mixed types raise. -/
def maxVal : Value → Value → Except String Value
  | Value.int a, Value.int b => Except.ok (Value.int (max a b))
  | Value.null, Value.int _ => Except.ok Value.null
  | Value.int _, Value.null => Except.ok Value.null
  | Value.null, Value.null => Except.ok Value.null
  | Value.str a, Value.str b => Except.ok (Value.str (max a b))
  | _, _ => Except.error "TypeError"

/-- Evaluation of one expression at one row of the chunk. -/
def evalRow : RExpr → Row → Except String Value
  | RExpr.lit n, _ => Except.ok (Value.int n)
  | RExpr.col c, r =>
    match lookupVal r c with
    | some v => Except.ok v
    | none => Except.error "NameError"
  | RExpr.add a b, r => do addVal (← evalRow a r) (← evalRow b r)
  | RExpr.sub a b, r => do subVal (← evalRow a r) (← evalRow b r)
  | RExpr.mul a b, r => do mulVal (← evalRow a r) (← evalRow b r)
  | RExpr.emax a b, r => do maxVal (← evalRow a r) (← evalRow b r)

/-- Vectorized evaluation of one expression over the whole chunk: the first
failing element fails the whole column (transformer.py line 183). -/
def evalColumn (e : RExpr) : List Row → Except String (List Value)
  | [] => Except.ok []
  | r :: rs =>
    match evalRow e r with
    | Except.error msg => Except.error msg
    | Except.ok v =>
      match evalColumn e rs with
      | Except.error msg => Except.error msg
      | Except.ok vs => Except.ok (v :: vs)

/-- Assignment of one field in one row: the first existing entry is replaced
in place (keeping the DataFrame column position), a new field is appended. -/
def setField : Row → String → Value → Row
  | [], c, v => [(c, v)]
  | (k, w) :: r, c, v => if k = c then (c, v) :: r else (k, w) :: setField r c v

/-- Data chunks of the rule engine: the column schema plus the rows. -/
structure Chunk where
  cols : List String
  rows : List Row
  deriving DecidableEq, Repr

/-- Whole-column assignment `result_df[output_field] = result`
(transformer.py line 184): an existing column keeps its position, a new
column is appended at the end of the schema. -/
def setCol (c : Chunk) (f : String) (vals : List Value) : Chunk :=
  { cols := if f ∈ c.cols then c.cols else c.cols ++ [f],
    rows := (c.rows.zip vals).map fun rv => setField rv.1 f rv.2 }

/-- One iteration of the rule loop (transformer.py lines 178-191): on success
the computed column is assigned, on any evaluation failure the output column
is filled with nulls and the loop continues. -/
def applyRule (c : Chunk) (f : String) (e : RExpr) : Chunk :=
  match evalColumn e c.rows with
  | Except.ok vals => setCol c f vals
  | Except.error _ => setCol c f (List.replicate c.rows.length Value.null)

/-- Model of `RuleEngine.apply_rules` (transformer.py lines 128-193): an empty
chunk yields an empty chunk whose schema is the input columns plus the rule
output fields; an empty rule set returns the chunk unchanged; otherwise the
rules are folded in order over the accumulating result chunk. -/
def apply_rules (rules : List (String × RExpr)) (df : Chunk) : Chunk :=
  if df.rows.isEmpty then
    if rules.isEmpty then { cols := df.cols, rows := [] }
    else { cols := df.cols ++ rules.map Prod.fst, rows := [] }
  else if rules.isEmpty then df
  else rules.foldl (fun acc r => applyRule acc r.1 r.2) df

/-- Values of one column of a chunk, as read back row by row. -/
def getCol (c : Chunk) (f : String) : List (Option Value) :=
  c.rows.map fun r => lookupVal r f

/-- C5: applying an empty RuleSet returns the chunk unchanged, whether or not
it has rows (transformer.py lines 138-147). -/
theorem C5_empty_ruleset_identity (df : Chunk) : apply_rules [] df = df := by
  cases df with
  | mk cols rows =>
    cases rows with
    | nil => rfl
    | cons a l => rfl

theorem evalColumn_ok_length {e : RExpr} : ∀ {rows : List Row} {vals : List Value},
    evalColumn e rows = Except.ok vals → vals.length = rows.length := by
  intro rows
  induction rows with
  | nil =>
    intro vals h
    simp only [evalColumn] at h
    cases h
    rfl
  | cons r rs ih =>
    intro vals h
    simp only [evalColumn] at h
    cases hr : evalRow e r with
    | error msg => rw [hr] at h; cases h
    | ok v =>
      rw [hr] at h
      cases hrs : evalColumn e rs with
      | error msg => rw [hrs] at h; cases h
      | ok vs =>
        rw [hrs] at h
        cases h
        simp [ih hrs]

theorem setCol_rows_length {c : Chunk} {f : String} {vals : List Value}
    (h : vals.length = c.rows.length) :
    (setCol c f vals).rows.length = c.rows.length := by
  simp [setCol, List.length_zip, h]

theorem applyRule_rows_length (c : Chunk) (f : String) (e : RExpr) :
    (applyRule c f e).rows.length = c.rows.length := by
  unfold applyRule
  cases hc : evalColumn e c.rows with
  | ok vals => exact setCol_rows_length (evalColumn_ok_length hc)
  | error msg => exact setCol_rows_length (List.length_replicate _ _)

theorem foldl_applyRule_rows_length :
    ∀ (rules : List (String × RExpr)) (acc : Chunk),
    (rules.foldl (fun acc r => applyRule acc r.1 r.2) acc).rows.length = acc.rows.length := by
  intro rules
  induction rules with
  | nil => intro acc; rfl
  | cons r rs ih =>
    intro acc
    rw [List.foldl_cons, ih, applyRule_rows_length]

theorem apply_rules_eq_foldl (rules : List (String × RExpr)) (df : Chunk)
    (h : df.rows ≠ []) :
    apply_rules rules df = rules.foldl (fun acc r => applyRule acc r.1 r.2) df := by
  cases df with
  | mk cols rows =>
    cases rows with
    | nil => exact absurd rfl h
    | cons a l =>
      cases rules with
      | nil => rfl
      | cons r rs => rfl

theorem apply_rules_rows_ne_nil (rules : List (String × RExpr)) (df : Chunk)
    (h : df.rows ≠ []) : (apply_rules rules df).rows ≠ [] := by
  rw [apply_rules_eq_foldl rules df h]
  intro hnil
  have hlen := foldl_applyRule_rows_length rules df
  rw [hnil] at hlen
  cases hrows : df.rows with
  | nil => exact h hrows
  | cons a l => rw [hrows] at hlen; simp at hlen

def dfC9 : Chunk := { cols := ["x"], rows := [[("x", Value.int 1)]] }

/-- C9: rules are evaluated sequentially in mapping order over an
accumulating result chunk — applying a concatenation of rule lists equals
applying the second list to the result of the first, a later rule can
reference an earlier rule's output field, a rule whose output field names an
input column overwrites it, and a later rule overwrites an earlier rule's
output of the same name. -/
theorem C9_sequential_accumulation (rules1 rules2 : List (String × RExpr))
    (df : Chunk) (h : df.rows ≠ []) :
    apply_rules (rules1 ++ rules2) df = apply_rules rules2 (apply_rules rules1 df)
    ∧ getCol (apply_rules
        [("a", RExpr.lit 2), ("b", RExpr.add (RExpr.col "a") (RExpr.col "a"))] dfC9) "b"
        = [some (Value.int 4)]
    ∧ getCol (apply_rules [("x", RExpr.lit 9)] dfC9) "x" = [some (Value.int 9)]
    ∧ getCol (apply_rules [("a", RExpr.lit 1), ("a", RExpr.lit 2)] dfC9) "a"
        = [some (Value.int 2)] := by
  refine ⟨?_, by decide, by decide, by decide⟩
  have h2 : (apply_rules rules1 df).rows ≠ [] := apply_rules_rows_ne_nil rules1 df h
  rw [apply_rules_eq_foldl (rules1 ++ rules2) df h, List.foldl_append,
    ← apply_rules_eq_foldl rules1 df h, ← apply_rules_eq_foldl rules2 _ h2]

/-- Witness for C9 at concrete rule lists and a concrete one-row chunk. -/
theorem C9_sequential_accumulation_witness :
    dfC9.rows ≠ []
    ∧ (apply_rules ([("u", RExpr.lit 3)] ++ [("v", RExpr.col "u")]) dfC9 =
         apply_rules [("v", RExpr.col "u")] (apply_rules [("u", RExpr.lit 3)] dfC9)
    ∧ getCol (apply_rules
        [("a", RExpr.lit 2), ("b", RExpr.add (RExpr.col "a") (RExpr.col "a"))] dfC9) "b"
        = [some (Value.int 4)]
    ∧ getCol (apply_rules [("x", RExpr.lit 9)] dfC9) "x" = [some (Value.int 9)]
    ∧ getCol (apply_rules [("a", RExpr.lit 1), ("a", RExpr.lit 2)] dfC9) "a"
        = [some (Value.int 2)]) :=
  ⟨by decide,
   C9_sequential_accumulation [("u", RExpr.lit 3)] [("v", RExpr.col "u")] dfC9 (by decide)⟩

theorem setField_notMem_append : ∀ (r : Row) (g : String) (v : Value),
    g ∉ rowKeys r → setField r g v = r ++ [(g, v)] := by
  intro r
  induction r with
  | nil => intro g v _; rfl
  | cons p r ih =>
    intro g v h
    simp only [rowKeys, List.map_cons, List.mem_cons] at h
    push_neg at h
    have h1 : ¬ p.1 = g := fun hh => h.1 hh.symm
    obtain ⟨k, w⟩ := p
    simp only at h1
    simp only [setField, if_neg h1, List.cons_append, List.cons.injEq, true_and]
    exact ih g v (by simpa [rowKeys] using h.2)

theorem zip_setField_forall2 : ∀ (rows : List Row) (vals : List Value) (g : String),
    vals.length = rows.length →
    (∀ r ∈ rows, g ∉ rowKeys r) →
    List.Forall₂ (fun r0 r1 => ∃ ext, r1 = r0 ++ ext) rows
      ((rows.zip vals).map fun rv => setField rv.1 g rv.2) := by
  intro rows
  induction rows with
  | nil => intro vals g _ _; exact List.Forall₂.nil
  | cons r rs ih =>
    intro vals g hlen hmem
    cases vals with
    | nil => simp at hlen
    | cons v vs =>
      simp only [List.zip_cons_cons, List.map_cons]
      refine List.Forall₂.cons ?_ ?_
      · exact ⟨[(g, v)], setField_notMem_append r g v (hmem r (List.mem_cons_self r rs))⟩
      · exact ih vs g (by simpa using hlen) fun x hx => hmem x (List.mem_cons_of_mem r hx)

theorem forall2_ext_trans : ∀ {l1 l2 l3 : List Row},
    List.Forall₂ (fun r0 r1 => ∃ ext, r1 = r0 ++ ext) l1 l2 →
    List.Forall₂ (fun r0 r1 => ∃ ext, r1 = r0 ++ ext) l2 l3 →
    List.Forall₂ (fun r0 r1 => ∃ ext, r1 = r0 ++ ext) l1 l3 := by
  intro l1 l2 l3 h12
  induction h12 generalizing l3 with
  | nil =>
    intro h23
    cases h23
    exact List.Forall₂.nil
  | cons hab h ih =>
    intro h23
    cases h23 with
    | cons hbc h2 =>
      refine List.Forall₂.cons ?_ (ih h2)
      obtain ⟨e1, he1⟩ := hab
      obtain ⟨e2, he2⟩ := hbc
      exact ⟨e1 ++ e2, by rw [he2, he1, List.append_assoc]⟩

theorem getCol_prefix_eq : ∀ {l0 l1 : List Row} {c : String},
    List.Forall₂ (fun r0 r1 => ∃ ext, r1 = r0 ++ ext) l0 l1 →
    (∀ r ∈ l0, c ∈ rowKeys r) →
    l1.map (fun r => lookupVal r c) = l0.map (fun r => lookupVal r c) := by
  intro l0 l1 c h
  induction h with
  | nil => intro _; rfl
  | cons hab h ih =>
    intro hmem
    simp only [List.map_cons]
    obtain ⟨ext, hext⟩ := hab
    rw [hext, lookupVal_append_left (hmem _ (List.mem_cons_self _ _)),
      ih fun r hr => hmem r (List.mem_cons_of_mem _ hr)]

theorem applyRule_as_setCol (acc : Chunk) (g : String) (eg : RExpr) :
    ∃ vals, applyRule acc g eg = setCol acc g vals ∧ vals.length = acc.rows.length := by
  unfold applyRule
  cases hc : evalColumn eg acc.rows with
  | ok vals => exact ⟨vals, rfl, evalColumn_ok_length hc⟩
  | error msg => exact ⟨_, rfl, List.length_replicate _ _⟩

theorem apply_foldl_frame :
    ∀ (rules : List (String × RExpr)) (acc : Chunk),
    (∀ r ∈ acc.rows, rowKeys r = acc.cols) →
    (∀ p ∈ rules, p.1 ∉ acc.cols) →
    (rules.map Prod.fst).Nodup →
    (rules.foldl (fun a r => applyRule a r.1 r.2) acc).cols = acc.cols ++ rules.map Prod.fst
    ∧ (∀ r ∈ (rules.foldl (fun a r => applyRule a r.1 r.2) acc).rows,
        rowKeys r = (rules.foldl (fun a r => applyRule a r.1 r.2) acc).cols)
    ∧ List.Forall₂ (fun r0 r1 => ∃ ext, r1 = r0 ++ ext) acc.rows
        (rules.foldl (fun a r => applyRule a r.1 r.2) acc).rows := by
  intro rules
  induction rules with
  | nil =>
    intro acc hwf _ _
    refine ⟨by simp, by simpa using hwf, ?_⟩
    simp only [List.foldl_nil]
    rw [List.forall₂_same]
    intro r _
    exact ⟨[], by simp⟩
  | cons p rs ih =>
    intro acc hwf hfresh hnd
    obtain ⟨g, eg⟩ := p
    obtain ⟨vals, hBeq, hlen⟩ := applyRule_as_setCol acc g eg
    have hgacc : g ∉ acc.cols := hfresh (g, eg) (List.mem_cons_self _ _)
    have hcolsB : (setCol acc g vals).cols = acc.cols ++ [g] := by
      simp [setCol, if_neg hgacc]
    have hrowsfree : ∀ r ∈ acc.rows, g ∉ rowKeys r := by
      intro r hr
      rw [hwf r hr]
      exact hgacc
    have hF2 : List.Forall₂ (fun r0 r1 => ∃ ext, r1 = r0 ++ ext) acc.rows
        (setCol acc g vals).rows := by
      unfold setCol
      exact zip_setField_forall2 acc.rows vals g hlen hrowsfree
    have hwfB : ∀ r ∈ (setCol acc g vals).rows, rowKeys r = (setCol acc g vals).cols := by
      intro r hr
      unfold setCol at hr
      simp only [List.mem_map] at hr
      obtain ⟨rv, hrvmem, hrv⟩ := hr
      have hr0 : rv.1 ∈ acc.rows := (List.of_mem_zip hrvmem).1
      rw [← hrv, setField_notMem_append rv.1 g rv.2 (hrowsfree rv.1 hr0), hcolsB]
      simp only [rowKeys, List.map_append, List.map_cons, List.map_nil]
      rw [← rowKeys, hwf rv.1 hr0]
    have hndtail : (rs.map Prod.fst).Nodup := by
      simp only [List.map_cons, List.nodup_cons] at hnd
      exact hnd.2
    have hgnotin : g ∉ rs.map Prod.fst := by
      simp only [List.map_cons, List.nodup_cons] at hnd
      exact hnd.1
    have hfreshB : ∀ q ∈ rs, q.1 ∉ (setCol acc g vals).cols := by
      intro q hq
      rw [hcolsB]
      rw [List.mem_append]
      push_neg
      constructor
      · exact hfresh q (List.mem_cons_of_mem _ hq)
      · simp only [List.mem_singleton]
        intro hqg
        exact hgnotin (hqg ▸ List.mem_map_of_mem Prod.fst hq)
    have hstep : ((g, eg) :: rs).foldl (fun a r => applyRule a r.1 r.2) acc =
        rs.foldl (fun a r => applyRule a r.1 r.2) (setCol acc g vals) := by
      rw [List.foldl_cons, hBeq]
    obtain ⟨ihcols, ihwf, ihF2⟩ := ih (setCol acc g vals) hwfB hfreshB hndtail
    refine ⟨?_, ?_, ?_⟩
    · rw [hstep, ihcols, hcolsB, List.append_assoc, List.singleton_append, List.map_cons]
    · rw [hstep]
      exact ihwf
    · rw [hstep]
      exact forall2_ext_trans hF2 ihF2

def df4x : Chunk := { cols := ["x"], rows := [[("x", Value.int 1)]] }

/-- Counterexample to C4 as stated: a rule whose output field names an
existing input column overwrites that column in place, so the input column's
values change and no additional column is added. -/
theorem C4_counterexample :
    getCol (apply_rules [("x", RExpr.lit 0)] df4x) "x" ≠ getCol df4x "x"
    ∧ (apply_rules [("x", RExpr.lit 0)] df4x).cols = df4x.cols := by
  decide

def ruleTotal : List (String × RExpr) :=
  [("total", RExpr.mul (RExpr.col "quantity") (RExpr.col "unit_price"))]

def dfQty : Chunk :=
  { cols := ["quantity", "unit_price"],
    rows := [[("quantity", Value.int 2), ("unit_price", Value.int 5)],
             [("quantity", Value.int 3), ("unit_price", Value.int 10)]] }

/-- C4 (amended): for rule output fields that are pairwise distinct and
distinct from the input columns, `apply_rules` returns the input chunk's
columns unaltered plus exactly one appended column per rule output field; in
particular the single rule total = quantity * unit_price yields
total = [10, 30] and leaves quantity and unit_price unchanged. -/
theorem C4_apply_adds_rule_columns
    (rules : List (String × RExpr)) (df : Chunk)
    (hwf : ∀ r ∈ df.rows, rowKeys r = df.cols)
    (hnd : (rules.map Prod.fst).Nodup)
    (hfresh : ∀ p ∈ rules, p.1 ∉ df.cols)
    (hrows : df.rows ≠ []) :
    (apply_rules rules df).cols = df.cols ++ rules.map Prod.fst
    ∧ (∀ c ∈ df.cols, getCol (apply_rules rules df) c = getCol df c)
    ∧ (apply_rules rules df).rows.length = df.rows.length
    ∧ getCol (apply_rules ruleTotal dfQty) "total" = [some (Value.int 10), some (Value.int 30)]
    ∧ getCol (apply_rules ruleTotal dfQty) "quantity" = getCol dfQty "quantity"
    ∧ getCol (apply_rules ruleTotal dfQty) "unit_price" = getCol dfQty "unit_price" := by
  rw [apply_rules_eq_foldl rules df hrows]
  obtain ⟨hcols, _, hF2⟩ := apply_foldl_frame rules df hwf hfresh hnd
  refine ⟨hcols, ?_, foldl_applyRule_rows_length rules df, by decide, by decide, by decide⟩
  intro c hc
  unfold getCol
  exact getCol_prefix_eq hF2 fun r hr => by rw [hwf r hr]; exact hc

/-- Witness for the amended C4 at the concrete quantity/unit_price chunk. -/
theorem C4_apply_adds_rule_columns_witness :
    (∀ r ∈ dfQty.rows, rowKeys r = dfQty.cols)
    ∧ (ruleTotal.map Prod.fst).Nodup
    ∧ (∀ p ∈ ruleTotal, p.1 ∉ dfQty.cols)
    ∧ dfQty.rows ≠ []
    ∧ ((apply_rules ruleTotal dfQty).cols = dfQty.cols ++ ruleTotal.map Prod.fst
    ∧ (∀ c ∈ dfQty.cols, getCol (apply_rules ruleTotal dfQty) c = getCol dfQty c)
    ∧ (apply_rules ruleTotal dfQty).rows.length = dfQty.rows.length
    ∧ getCol (apply_rules ruleTotal dfQty) "total" = [some (Value.int 10), some (Value.int 30)]
    ∧ getCol (apply_rules ruleTotal dfQty) "quantity" = getCol dfQty "quantity"
    ∧ getCol (apply_rules ruleTotal dfQty) "unit_price" = getCol dfQty "unit_price") :=
  ⟨by decide, by decide, by decide, by decide,
   C4_apply_adds_rule_columns ruleTotal dfQty (by decide) (by decide) (by decide) (by decide)⟩

/-! ## Isolation of a failing rule (claim C2)

`RowRel f r1 r2` relates a row of the run in which rule `f` failed to the
corresponding row of the run in which it succeeded: the column schemas agree,
all columns other than `f` agree, and the failing run holds null at `f`. -/

def RowRel (f : String) (r1 r2 : Row) : Prop :=
  rowKeys r1 = rowKeys r2
  ∧ (∀ c, c ≠ f → lookupVal r1 c = lookupVal r2 c)
  ∧ lookupVal r1 f = some Value.null

theorem lookup_setField_self : ∀ (r : Row) (k : String) (v : Value),
    lookupVal (setField r k v) k = some v := by
  intro r
  induction r with
  | nil => intro k v; simp [setField, lookupVal]
  | cons p r ih =>
    intro k v
    obtain ⟨pk, pv⟩ := p
    by_cases h : pk = k
    · simp [setField, h, lookupVal]
    · simp only [setField, if_neg h, lookupVal, if_neg h]
      exact ih k v

theorem lookup_setField_ne : ∀ (r : Row) (k c : String) (v : Value), c ≠ k →
    lookupVal (setField r k v) c = lookupVal r c := by
  intro r
  induction r with
  | nil =>
    intro k c v hck
    simp only [setField, lookupVal]
    rw [if_neg fun h => hck h.symm]
  | cons p r ih =>
    intro k c v hck
    obtain ⟨pk, pv⟩ := p
    by_cases h : pk = k
    · simp only [setField, if_pos h, lookupVal]
      rw [if_neg fun hh => hck hh.symm, if_neg fun hh => hck (hh.symm.trans h)]
    · simp only [setField, if_neg h, lookupVal]
      by_cases h2 : pk = c
      · rw [if_pos h2, if_pos h2]
      · rw [if_neg h2, if_neg h2]
        exact ih k c v hck

theorem rowKeys_cons (a : String) (b : Value) (r : Row) :
    rowKeys ((a, b) :: r) = a :: rowKeys r := rfl

theorem rowKeys_setField : ∀ (r : Row) (k : String) (v : Value),
    rowKeys (setField r k v) = if k ∈ rowKeys r then rowKeys r else rowKeys r ++ [k] := by
  intro r
  induction r with
  | nil => intro k v; simp [setField, rowKeys]
  | cons p r ih =>
    intro k v
    obtain ⟨pk, pv⟩ := p
    by_cases h : pk = k
    · subst h
      have hstep : setField ((pk, pv) :: r) pk v = (pk, v) :: r := by
        simp [setField]
      rw [hstep, rowKeys_cons, rowKeys_cons, if_pos (List.mem_cons_self pk (rowKeys r))]
    · have hstep : setField ((pk, pv) :: r) k v = (pk, pv) :: setField r k v := by
        simp [setField, if_neg h]
      rw [hstep, rowKeys_cons, ih k v, rowKeys_cons]
      have hne : ¬ k = pk := fun hh => h hh.symm
      by_cases hmem : k ∈ rowKeys r
      · rw [if_pos hmem, if_pos (List.mem_cons_of_mem pk hmem)]
      · have hnmem : k ∉ pk :: rowKeys r := by
          simp only [List.mem_cons]
          push_neg
          exact ⟨hne, hmem⟩
        rw [if_neg hmem, if_neg hnmem]
        rfl

theorem RowRel_setField_same (f g : String) (v : Value) {r1 r2 : Row}
    (h : RowRel f r1 r2) (hg : g ≠ f) :
    RowRel f (setField r1 g v) (setField r2 g v) := by
  obtain ⟨hkeys, hlook, hnull⟩ := h
  refine ⟨?_, ?_, ?_⟩
  · rw [rowKeys_setField, rowKeys_setField, hkeys]
  · intro c hc
    by_cases hcg : c = g
    · rw [hcg, lookup_setField_self, lookup_setField_self]
    · rw [lookup_setField_ne _ _ _ _ hcg, lookup_setField_ne _ _ _ _ hcg]
      exact hlook c hc
  · rw [lookup_setField_ne _ _ _ _ fun hh => hg hh.symm]
    exact hnull

theorem RowRel_setField_base (r : Row) (f : String) (v : Value) :
    RowRel f (setField r f Value.null) (setField r f v) := by
  refine ⟨?_, ?_, lookup_setField_self r f Value.null⟩
  · rw [rowKeys_setField, rowKeys_setField]
  · intro c hc
    rw [lookup_setField_ne _ _ _ _ hc, lookup_setField_ne _ _ _ _ hc]

theorem evalRow_congr : ∀ (e : RExpr) {r1 r2 : Row},
    (∀ c ∈ exprRefs e, lookupVal r1 c = lookupVal r2 c) →
    evalRow e r1 = evalRow e r2 := by
  intro e
  induction e with
  | lit n => intro r1 r2 _; rfl
  | col c =>
    intro r1 r2 h
    have := h c (by simp [exprRefs])
    simp only [evalRow, this]
  | add a b iha ihb =>
    intro r1 r2 h
    simp only [evalRow]
    rw [iha fun c hc => h c (by simp [exprRefs, hc]),
      ihb fun c hc => h c (by simp [exprRefs, hc])]
  | sub a b iha ihb =>
    intro r1 r2 h
    simp only [evalRow]
    rw [iha fun c hc => h c (by simp [exprRefs, hc]),
      ihb fun c hc => h c (by simp [exprRefs, hc])]
  | mul a b iha ihb =>
    intro r1 r2 h
    simp only [evalRow]
    rw [iha fun c hc => h c (by simp [exprRefs, hc]),
      ihb fun c hc => h c (by simp [exprRefs, hc])]
  | emax a b iha ihb =>
    intro r1 r2 h
    simp only [evalRow]
    rw [iha fun c hc => h c (by simp [exprRefs, hc]),
      ihb fun c hc => h c (by simp [exprRefs, hc])]

theorem evalRow_congr_rel {f : String} (e : RExpr) {r1 r2 : Row}
    (h : RowRel f r1 r2) (hrefs : f ∉ exprRefs e) :
    evalRow e r1 = evalRow e r2 := by
  refine evalRow_congr e fun c hc => ?_
  refine h.2.1 c fun hcf => ?_
  rw [hcf] at hc
  exact hrefs hc

theorem evalColumn_congr_rel {f : String} (e : RExpr) (hrefs : f ∉ exprRefs e) :
    ∀ {l1 l2 : List Row}, List.Forall₂ (RowRel f) l1 l2 →
    evalColumn e l1 = evalColumn e l2 := by
  intro l1 l2 h
  induction h with
  | nil => rfl
  | cons hab h ih =>
    simp only [evalColumn]
    rw [evalRow_congr_rel e hab hrefs, ih]

theorem setCol_rows_rel {f g : String} (hg : g ≠ f) :
    ∀ {rows1 rows2 : List Row} (vals : List Value),
    List.Forall₂ (RowRel f) rows1 rows2 →
    List.Forall₂ (RowRel f)
      ((rows1.zip vals).map fun rv => setField rv.1 g rv.2)
      ((rows2.zip vals).map fun rv => setField rv.1 g rv.2) := by
  intro rows1 rows2 vals h
  induction h generalizing vals with
  | nil => exact List.Forall₂.nil
  | cons hab h ih =>
    cases vals with
    | nil => exact List.Forall₂.nil
    | cons v vs =>
      simp only [List.zip_cons_cons, List.map_cons]
      exact List.Forall₂.cons (RowRel_setField_same f g v hab hg) (ih vs)

theorem applyRule_rel {f g : String} (eg : RExpr) (A1 A2 : Chunk)
    (hrel : List.Forall₂ (RowRel f) A1.rows A2.rows)
    (hg : g ≠ f) (hrefs : f ∉ exprRefs eg) :
    List.Forall₂ (RowRel f) (applyRule A1 g eg).rows (applyRule A2 g eg).rows := by
  have heval : evalColumn eg A1.rows = evalColumn eg A2.rows :=
    evalColumn_congr_rel eg hrefs hrel
  have hlen : A1.rows.length = A2.rows.length := hrel.length_eq
  unfold applyRule
  cases hc : evalColumn eg A2.rows with
  | ok vals =>
    rw [heval, hc]
    unfold setCol
    exact setCol_rows_rel hg vals hrel
  | error msg =>
    rw [heval, hc]
    unfold setCol
    rw [hlen]
    exact setCol_rows_rel hg (List.replicate A2.rows.length Value.null) hrel

theorem foldl_rel {f : String} :
    ∀ (post : List (String × RExpr)) (A1 A2 : Chunk),
    List.Forall₂ (RowRel f) A1.rows A2.rows →
    (∀ q ∈ post, q.1 ≠ f ∧ f ∉ exprRefs q.2) →
    List.Forall₂ (RowRel f)
      (post.foldl (fun a r => applyRule a r.1 r.2) A1).rows
      (post.foldl (fun a r => applyRule a r.1 r.2) A2).rows := by
  intro post
  induction post with
  | nil => intro A1 A2 h _; exact h
  | cons q qs ih =>
    intro A1 A2 h hpost
    obtain ⟨hq1, hq2⟩ := hpost q (List.mem_cons_self _ _)
    simp only [List.foldl_cons]
    exact ih _ _ (applyRule_rel q.2 A1 A2 h hq1 hq2)
      fun x hx => hpost x (List.mem_cons_of_mem _ hx)

theorem setCol_base_rel (f : String) :
    ∀ (rows : List Row) (vals : List Value), vals.length = rows.length →
    List.Forall₂ (RowRel f)
      ((rows.zip (List.replicate rows.length Value.null)).map fun rv => setField rv.1 f rv.2)
      ((rows.zip vals).map fun rv => setField rv.1 f rv.2) := by
  intro rows
  induction rows with
  | nil => intro vals _; exact List.Forall₂.nil
  | cons r rs ih =>
    intro vals hlen
    cases vals with
    | nil => simp at hlen
    | cons v vs =>
      simp only [List.length_cons, List.replicate_succ, List.zip_cons_cons, List.map_cons]
      exact List.Forall₂.cons (RowRel_setField_base r f v) (ih vs (by simpa using hlen))

theorem forall2_rowrel_null {f : String} :
    ∀ {l1 l2 : List Row}, List.Forall₂ (RowRel f) l1 l2 →
    ∀ r ∈ l1, lookupVal r f = some Value.null := by
  intro l1 l2 h
  induction h with
  | nil => intro r hr; simp at hr
  | cons hab h ih =>
    intro r hr
    rcases List.mem_cons.mp hr with hr | hr
    · rw [hr]
      exact hab.2.2
    · exact ih r hr

theorem forall2_rowrel_getcol {f c : String} (hc : c ≠ f) :
    ∀ {l1 l2 : List Row}, List.Forall₂ (RowRel f) l1 l2 →
    l1.map (fun r => lookupVal r c) = l2.map (fun r => lookupVal r c) := by
  intro l1 l2 h
  induction h with
  | nil => rfl
  | cons hab h ih =>
    simp only [List.map_cons]
    rw [hab.2.1 c hc, ih]

theorem map_lookup_eq_replicate {f : String} : ∀ (l : List Row),
    (∀ r ∈ l, lookupVal r f = some Value.null) →
    l.map (fun r => lookupVal r f) = List.replicate l.length (some Value.null) := by
  intro l
  induction l with
  | nil => intro _; rfl
  | cons r rs ih =>
    intro h
    simp only [List.map_cons, List.length_cons, List.replicate_succ]
    rw [h r (List.mem_cons_self _ _), ih fun x hx => h x (List.mem_cons_of_mem _ hx)]

def dfC2 : Chunk := { cols := ["x"], rows := [[("x", Value.int 1)]] }

def rulesC2fail : List (String × RExpr) :=
  [("a", RExpr.col "zz"), ("b", RExpr.add (RExpr.col "a") (RExpr.lit 1))]

def rulesC2ok : List (String × RExpr) :=
  [("a", RExpr.lit 5), ("b", RExpr.add (RExpr.col "a") (RExpr.lit 1))]

def rulesC2fail3 : List (String × RExpr) :=
  [("a", RExpr.col "zz"), ("b", RExpr.add (RExpr.col "a") (RExpr.lit 1)),
   ("c", RExpr.add (RExpr.col "b") (RExpr.lit 1))]

def rulesC2ok3 : List (String × RExpr) :=
  [("a", RExpr.lit 5), ("b", RExpr.add (RExpr.col "a") (RExpr.lit 1)),
   ("c", RExpr.add (RExpr.col "b") (RExpr.lit 1))]

/-- Counterexample to C2 as stated: rule a fails with an unresolvable column
reference and is null-filled, but the later rule b references a, so b's
output column (null) is NOT what it would have been had rule a succeeded
(b = 6).  The divergence is even transitive: rule c references only b, never
a, yet c is null in the failing run against 7 in the succeeding run — so a
per-rule reading that spares every rule not referencing the failing field
directly is false as well. -/
theorem C2_counterexample :
    evalColumn (RExpr.col "zz") dfC2.rows = Except.error "NameError"
    ∧ evalColumn (RExpr.lit 5) dfC2.rows = Except.ok [Value.int 5]
    ∧ getCol (apply_rules rulesC2fail dfC2) "b" = [some Value.null]
    ∧ getCol (apply_rules rulesC2ok dfC2) "b" = [some (Value.int 6)]
    ∧ getCol (apply_rules rulesC2fail dfC2) "b" ≠ getCol (apply_rules rulesC2ok dfC2) "b"
    ∧ "a" ∉ exprRefs (RExpr.add (RExpr.col "b") (RExpr.lit 1))
    ∧ getCol (apply_rules rulesC2fail3 dfC2) "c" = [some Value.null]
    ∧ getCol (apply_rules rulesC2ok3 dfC2) "c" = [some (Value.int 7)]
    ∧ getCol (apply_rules rulesC2fail3 dfC2) "c" ≠ getCol (apply_rules rulesC2ok3 dfC2) "c" :=
  ⟨rfl, rfl, by decide, by decide, by decide, by decide, by decide, by decide, by decide⟩

/-- C2 (amended): if evaluating one rule's expression fails, that rule's
output column is null for every row of the chunk and no exception escapes
(the fold is total and continues over the remaining rules); and provided no
rule after the failing one references the failing rule's output field or
reuses it as its own output field, every other rule's output column is
computed exactly as it would be had the failing rule succeeded.  The proviso
ranges over all later rules because dependence propagates transitively: a
later rule that reaches the failing field only through an intermediate rule
diverges too (see the counterexample). -/
theorem C2_rule_failure_isolated
    (pre post : List (String × RExpr)) (f : String) (e eAlt : RExpr) (df : Chunk)
    (hrows : df.rows ≠ [])
    (hfail : ∃ msg, evalColumn e (apply_rules pre df).rows = Except.error msg)
    (hok : ∃ vals, evalColumn eAlt (apply_rules pre df).rows = Except.ok vals)
    (hpost : ∀ q ∈ post, q.1 ≠ f ∧ f ∉ exprRefs q.2) :
    getCol (apply_rules (pre ++ (f, e) :: post) df) f
      = List.replicate df.rows.length (some Value.null)
    ∧ ∀ c, c ≠ f →
        getCol (apply_rules (pre ++ (f, e) :: post) df) c
          = getCol (apply_rules (pre ++ (f, eAlt) :: post) df) c := by
  obtain ⟨msg, hfail⟩ := hfail
  obtain ⟨vals, hok⟩ := hok
  have hres1 : apply_rules (pre ++ (f, e) :: post) df
      = post.foldl (fun a r => applyRule a r.1 r.2) (applyRule (apply_rules pre df) f e) := by
    rw [apply_rules_eq_foldl _ df hrows, List.foldl_append, List.foldl_cons,
      ← apply_rules_eq_foldl pre df hrows]
  have hres2 : apply_rules (pre ++ (f, eAlt) :: post) df
      = post.foldl (fun a r => applyRule a r.1 r.2) (applyRule (apply_rules pre df) f eAlt) := by
    rw [apply_rules_eq_foldl _ df hrows, List.foldl_append, List.foldl_cons,
      ← apply_rules_eq_foldl pre df hrows]
  have hA1 : applyRule (apply_rules pre df) f e
      = setCol (apply_rules pre df) f
          (List.replicate (apply_rules pre df).rows.length Value.null) := by
    unfold applyRule
    rw [hfail]
  have hA2 : applyRule (apply_rules pre df) f eAlt = setCol (apply_rules pre df) f vals := by
    unfold applyRule
    rw [hok]
  have hlenvals : vals.length = (apply_rules pre df).rows.length := evalColumn_ok_length hok
  have hbase : List.Forall₂ (RowRel f) (applyRule (apply_rules pre df) f e).rows
      (applyRule (apply_rules pre df) f eAlt).rows := by
    rw [hA1, hA2]
    unfold setCol
    exact setCol_base_rel f (apply_rules pre df).rows vals hlenvals
  have hrel := foldl_rel post _ _ hbase hpost
  have hlenA : (apply_rules pre df).rows.length = df.rows.length := by
    rw [apply_rules_eq_foldl pre df hrows, foldl_applyRule_rows_length]
  have hlen : (post.foldl (fun a r => applyRule a r.1 r.2)
      (applyRule (apply_rules pre df) f e)).rows.length = df.rows.length := by
    rw [foldl_applyRule_rows_length, applyRule_rows_length, hlenA]
  constructor
  · rw [hres1]
    unfold getCol
    rw [map_lookup_eq_replicate _ (forall2_rowrel_null hrel), hlen]
  · intro c hc
    rw [hres1, hres2]
    unfold getCol
    exact forall2_rowrel_getcol hc hrel

/-- Witness for the amended C2: the rule a fails on a missing column, the
comparison run replaces its expression by the literal 5, and the later rule
does not reference a. -/
theorem C2_rule_failure_isolated_witness :
    dfC2.rows ≠ []
    ∧ (∃ msg, evalColumn (RExpr.col "zz") (apply_rules [] dfC2).rows = Except.error msg)
    ∧ (∃ vals, evalColumn (RExpr.lit 5) (apply_rules [] dfC2).rows = Except.ok vals)
    ∧ (∀ q ∈ [("w2", RExpr.lit 7)], q.1 ≠ "a" ∧ "a" ∉ exprRefs q.2)
    ∧ (getCol (apply_rules ([] ++ ("a", RExpr.col "zz") :: [("w2", RExpr.lit 7)]) dfC2) "a"
        = List.replicate dfC2.rows.length (some Value.null)
    ∧ ∀ c, c ≠ "a" →
        getCol (apply_rules ([] ++ ("a", RExpr.col "zz") :: [("w2", RExpr.lit 7)]) dfC2) c
          = getCol (apply_rules ([] ++ ("a", RExpr.lit 5) :: [("w2", RExpr.lit 7)]) dfC2) c) :=
  ⟨by decide, ⟨"NameError", rfl⟩, ⟨[Value.int 5], rfl⟩, by decide,
   C2_rule_failure_isolated [] [("w2", RExpr.lit 7)] "a" (RExpr.col "zz") (RExpr.lit 5) dfC2
     (by decide) ⟨"NameError", rfl⟩ ⟨[Value.int 5], rfl⟩ (by decide)⟩

/-! ## Static rule validation (transformer.py, RuleEngine.validate_rules)

The source replaces the characters `( ) + - * / ,` of the expression by
spaces, splits on whitespace, and filters out numeric literals (after
removing one dot and one minus sign), the names of the evaluation namespace,
Python keywords, and quoted string literals; what remains is treated as
column references. -/

def opChars : List Char := ['(', ')', '+', '-', '*', '/', ',']

def blankOps (s : List Char) : List Char :=
  s.map fun ch => if ch ∈ opChars then ' ' else ch

/-- Whitespace split of a character list (Python `str.split()`): maximal
non-blank runs, empties discarded. -/
def splitWsAux : List Char → List Char → List (List Char)
  | [], acc => if acc.isEmpty then [] else [acc.reverse]
  | ch :: rest, acc =>
    if ch.isWhitespace then
      if acc.isEmpty then splitWsAux rest [] else acc.reverse :: splitWsAux rest []
    else splitWsAux rest (ch :: acc)

def tokenize (s : String) : List String :=
  (splitWsAux (blankOps s.toList) []).map fun t => String.mk t

/-- Removal of the first occurrence of a character (Python
`str.replace(c,: one count)`). -/
def removeFirstChar (c : Char) : List Char → List Char
  | [] => []
  | x :: xs => if x = c then xs else x :: removeFirstChar c xs

/-- Python `str.isdigit` over the modelled alphabet: non-empty and all
decimal digits. -/
def isDigitsStr (l : List Char) : Bool := !l.isEmpty && l.all Char.isDigit

def isNumericToken (t : String) : Bool :=
  isDigitsStr (removeFirstChar '-' (removeFirstChar '.' t.toList))

def validateSafeNames : List String :=
  ["max", "min", "sum", "abs", "round", "np", "pd", "isnan",
   "True", "False", "None", "int", "float", "str"]

def validateKeywords : List String :=
  ["if", "else", "and", "or", "not", "is", "in", "for", "while"]

def startsWithQuote (t : String) : Bool :=
  match t.toList with
  | [] => false
  | c :: _ => c = '"' || c = '\x27'

/-- Tokens of an expression treated as column references by
`validate_rules` (transformer.py lines 219-224). -/
def exprVariables (s : String) : List String :=
  (tokenize s).filter fun t =>
    !t.isEmpty && !isNumericToken t && !validateSafeNames.contains t
      && !validateKeywords.contains t && !startsWithQuote t

/-- Model of `RuleEngine.validate_rules` (transformer.py lines 195-236): one
boolean per rule, true iff every remaining token is a known column of the
sample. -/
def validate_rules (rules : List (String × String)) (cols : List String) :
    List (String × Bool) :=
  rules.map fun r => (r.1, (exprVariables r.2).all fun v => cols.contains v)

/-- C6: validation is a static token check — each rule is mapped to the
boolean that is true iff every token surviving the tokenizer's discards is a
column name of the sample; the tokenizer splits on operator, parenthesis and
comma boundaries and discards builtin names, numeric literals and quoted
strings; and the rule total = quantity * unit_price validates to False
against a sample lacking the unit_price column. -/
theorem C6_validate_static (rules : List (String × String)) (cols : List String)
    (f e : String) (hmem : (f, e) ∈ rules) :
    (f, (exprVariables e).all fun v => cols.contains v) ∈ validate_rules rules cols
    ∧ (((exprVariables e).all fun v => cols.contains v) = true ↔
        ∀ t ∈ exprVariables e, t ∈ cols)
    ∧ tokenize "quantity * unit_price" = ["quantity", "unit_price"]
    ∧ exprVariables "max(quantity, 3.5)" = ["quantity"]
    ∧ validate_rules [("total", "quantity * unit_price")] ["quantity"] = [("total", false)]
    ∧ validate_rules [("total", "quantity * unit_price")] ["quantity", "unit_price"]
        = [("total", true)] := by
  refine ⟨List.mem_map_of_mem _ hmem, ?_, by decide, by decide, by decide, by decide⟩
  simp [List.all_eq_true]

/-- Witness for C6 at the claim's own instance. -/
theorem C6_validate_static_witness :
    ("total", "quantity * unit_price") ∈ [("total", "quantity * unit_price")]
    ∧ (("total", (exprVariables "quantity * unit_price").all fun v =>
          ["quantity"].contains v) ∈
        validate_rules [("total", "quantity * unit_price")] ["quantity"]
    ∧ (((exprVariables "quantity * unit_price").all fun v =>
          ["quantity"].contains v) = true ↔
        ∀ t ∈ exprVariables "quantity * unit_price", t ∈ ["quantity"])
    ∧ tokenize "quantity * unit_price" = ["quantity", "unit_price"]
    ∧ exprVariables "max(quantity, 3.5)" = ["quantity"]
    ∧ validate_rules [("total", "quantity * unit_price")] ["quantity"] = [("total", false)]
    ∧ validate_rules [("total", "quantity * unit_price")] ["quantity", "unit_price"]
        = [("total", true)]) :=
  ⟨by decide,
   C6_validate_static [("total", "quantity * unit_price")] ["quantity"]
     "total" "quantity * unit_price" (by decide)⟩

/-! ## Job-level model (src/app/services/report_generator.py, ReportGenerator)

A CSV source on disk as the validation code observes it: absent, empty
(pandas EmptyDataError), unparsable (pandas ParserError), or a readable
table. -/

inductive CsvFile : Type
  | missing : CsvFile
  | empty : CsvFile
  | malformed : String → CsvFile
  | table : List String → List Row → CsvFile
  deriving DecidableEq, Repr

/-- Model of `CSVParser.validate_csv` (parser.py lines 17-45) as called with
no required-column list: the `(is_valid, error_message)` pair. -/
def validate_csv : CsvFile → Bool × String
  | CsvFile.missing => (false, "File not found")
  | CsvFile.empty => (false, "CSV file is empty.")
  | CsvFile.malformed m => (false, "CSV parsing error: " ++ m)
  | CsvFile.table _ _ => (true, "")

/-- Model of `CSVParser.get_columns` (parser.py lines 48-65). -/
def get_columns : CsvFile → List String
  | CsvFile.table cols _ => cols
  | _ => []

/-- Error classes a job submission can surface: `notFound` models
`FileNotFoundError` (surfaced as HTTP 404), `badRequest` models `ValueError`
(HTTP 400), `internal` any other exception (HTTP 500)
(report_generator.py lines 88-108). -/
inductive JobError : Type
  | notFound : String → JobError
  | badRequest : String → JobError
  | internal : String → JobError
  deriving DecidableEq, Repr

def JobError.isNotFound : JobError → Bool
  | JobError.notFound _ => true
  | _ => false

/-- Model of `ReportGenerator._validate_input_files` (report_generator.py
lines 110-126): an invalid input or reference file raises
`FileNotFoundError` wrapping the validation message, and a reference file
lacking a join key column raises `ValueError`. -/
def validate_input_files (input : CsvFile) (reference : Option CsvFile)
    (jk : List (String × String)) : Except JobError Unit :=
  if !(validate_csv input).1 then
    Except.error (JobError.notFound ("Invalid input file: " ++ (validate_csv input).2))
  else
    match reference with
    | none => Except.ok ()
    | some ref =>
      if !(validate_csv ref).1 then
        Except.error (JobError.notFound ("Invalid reference file: " ++ (validate_csv ref).2))
      else if jk.isEmpty then Except.ok ()
      else if jk.any fun p => !(get_columns ref).contains p.2 then
        Except.error (JobError.badRequest "Reference file is missing required join columns")
      else Except.ok ()

/-- Model of `ReportGenerator._apply_rules_in_parallel` (report_generator.py
lines 128-159): empty chunks are not submitted, a worker that raises is
modelled as `none` and its chunk's contribution is dropped, and empty
processed chunks are not collected. -/
def apply_rules_in_parallel (worker : Chunk → Option Chunk)
    (chunks : List Chunk) : List Chunk :=
  ((chunks.filter fun c => !c.rows.isEmpty).filterMap worker).filter
    fun c => !c.rows.isEmpty

/-- Model of `ReportGenerator.generate_report` (report_generator.py lines
49-108): file validation runs first and its exceptions surface synchronously
before any chunk is produced; then the chunk stream is built (abstracted by
`mkChunks`, standing for `CSVParser.process_in_chunks`), the workers run, the
collected chunks are concatenated (an empty collection gives an empty
dataset) and the artifact is written; chunk failures never fail the job. -/
def generate_report (input : CsvFile) (reference : Option CsvFile)
    (jk : List (String × String)) (mkChunks : CsvFile → List Chunk)
    (worker : Chunk → Option Chunk) : Except JobError (List Row) :=
  match validate_input_files input reference jk with
  | Except.error err => Except.error err
  | Except.ok _ =>
    Except.ok ((apply_rules_in_parallel worker (mkChunks input)).flatMap Chunk.rows)

/-- Counterexample to C7 as stated: an empty input dataset makes job
submission fail with the `FileNotFoundError` class (HTTP 404) — the same
class `NotFoundError` used for missing files — not with a distinct
schema-error class (`_validate_input_files` wraps the "CSV file is empty."
message in `FileNotFoundError`, report_generator.py lines 115-117). -/
theorem C7_counterexample :
    validate_input_files CsvFile.empty none [] =
      Except.error (JobError.notFound "Invalid input file: CSV file is empty.")
    ∧ (match generate_report CsvFile.empty none [] (fun _ => []) (fun c => some c) with
       | Except.error err => err.isNotFound
       | Except.ok _ => false) = true := by
  exact ⟨rfl, rfl⟩

/-- C7 (amended): if the input dataset is empty or unparsable as tabular
data, job submission fails synchronously — before any chunk is produced and
before any parallel work begins — but with the not-found error class
(`FileNotFoundError`, surfaced as HTTP 404), the same class used for a
missing input file, not with a distinct schema-error class. -/
theorem C7_schema_failure_is_not_found
    (input : CsvFile) (reference : Option CsvFile) (jk : List (String × String))
    (mkChunks : CsvFile → List Chunk) (worker : Chunk → Option Chunk)
    (h : input = CsvFile.empty ∨ ∃ m, input = CsvFile.malformed m) :
    ∃ msg, generate_report input reference jk mkChunks worker
      = Except.error (JobError.notFound msg) := by
  rcases h with h | ⟨m, h⟩
  · subst h
    exact ⟨"Invalid input file: CSV file is empty.", rfl⟩
  · subst h
    exact ⟨"Invalid input file: " ++ ("CSV parsing error: " ++ m), rfl⟩

/-- Witness for the amended C7 at an empty input file. -/
theorem C7_schema_failure_is_not_found_witness :
    (CsvFile.empty = CsvFile.empty ∨ ∃ m, CsvFile.empty = CsvFile.malformed m)
    ∧ ∃ msg, generate_report CsvFile.empty none [] (fun _ => []) (fun c => some c)
        = Except.error (JobError.notFound msg) :=
  ⟨Or.inl rfl,
   C7_schema_failure_is_not_found CsvFile.empty none [] (fun _ => []) (fun c => some c)
     (Or.inl rfl)⟩

/-- C8: an exception in one worker drops only that chunk's contribution
while the surrounding chunks are still collected, and a job whose chunks all
fail still completes successfully with an empty dataset (an empty artifact
is written). -/
theorem C8_chunk_failure_dropped_job_succeeds
    (worker : Chunk → Option Chunk) (l1 l2 : List Chunk) (c : Chunk)
    (cols : List String) (rows : List Row) (jk : List (String × String))
    (mkChunks : CsvFile → List Chunk)
    (hfail : worker c = none)
    (hall : ∀ ch ∈ mkChunks (CsvFile.table cols rows), worker ch = none) :
    apply_rules_in_parallel worker (l1 ++ c :: l2)
      = apply_rules_in_parallel worker (l1 ++ l2)
    ∧ generate_report (CsvFile.table cols rows) none jk mkChunks worker = Except.ok [] := by
  constructor
  · unfold apply_rules_in_parallel
    have key : ((l1 ++ c :: l2).filter fun x => !x.rows.isEmpty).filterMap worker
        = ((l1 ++ l2).filter fun x => !x.rows.isEmpty).filterMap worker := by
      rw [List.filter_append, List.filter_append, List.filter_cons]
      by_cases hc : (!c.rows.isEmpty) = true
      · rw [if_pos hc, List.filterMap_append, List.filterMap_append,
          List.filterMap_cons, hfail]
      · rw [if_neg hc]
    rw [key]
  · have hcollect : apply_rules_in_parallel worker (mkChunks (CsvFile.table cols rows)) = [] := by
      unfold apply_rules_in_parallel
      have hnil : ((mkChunks (CsvFile.table cols rows)).filter
          fun x => !x.rows.isEmpty).filterMap worker = [] := by
        rw [List.filterMap_eq_nil_iff]
        intro a ha
        exact hall a (List.mem_of_mem_filter ha)
      rw [hnil]
      rfl
    have hrepr : generate_report (CsvFile.table cols rows) none jk mkChunks worker
        = Except.ok ((apply_rules_in_parallel worker
            (mkChunks (CsvFile.table cols rows))).flatMap Chunk.rows) := rfl
    rw [hrepr, hcollect]
    rfl

def chunkC8 : Chunk := { cols := ["x"], rows := [[("x", Value.int 1)]] }

def noneWorker : Chunk → Option Chunk := fun _ => none

def mkChunksC8 : CsvFile → List Chunk := fun _ => [chunkC8]

/-- Witness for C8: a worker that always raises drops every chunk and the
job still returns an empty dataset. -/
theorem C8_chunk_failure_dropped_job_succeeds_witness :
    noneWorker chunkC8 = none
    ∧ (∀ ch ∈ mkChunksC8 (CsvFile.table ["x"] [[("x", Value.int 1)]]), noneWorker ch = none)
    ∧ (apply_rules_in_parallel noneWorker ([chunkC8] ++ chunkC8 :: [chunkC8])
        = apply_rules_in_parallel noneWorker ([chunkC8] ++ [chunkC8])
    ∧ generate_report (CsvFile.table ["x"] [[("x", Value.int 1)]]) none [] mkChunksC8 noneWorker
        = Except.ok []) :=
  ⟨rfl, by decide,
   C8_chunk_failure_dropped_job_succeeds noneWorker [chunkC8] [chunkC8] chunkC8
     ["x"] [[("x", Value.int 1)]] [] mkChunksC8 rfl (by decide)⟩

/-! ## Rule persistence (transformer.py, RuleEngine.load_rules_from_file /
save_rules_to_file)

`save_rules_to_file` serializes `self.rules` with `json.dump(..., indent=2,
sort_keys=True)` (or `yaml.dump(..., sort_keys=True)`): the persisted object
holds exactly the same key/value entries with the keys in sorted order.
`load_rules_from_file` parses that object back as a dictionary.  The stored
object is modelled as the entry list it contains; Python dictionary equality
(`==`) compares the key/value mapping, not the entry order. -/

def insertByKey (x : String × String) : List (String × String) → List (String × String)
  | [] => [x]
  | y :: ys => if x.1 ≤ y.1 then x :: y :: ys else y :: insertByKey x ys

def sortByKey : List (String × String) → List (String × String)
  | [] => []
  | x :: xs => insertByKey x (sortByKey xs)

/-- Model of `RuleEngine.save_rules_to_file` (transformer.py lines 89-114):
the persisted structured object, with keys sorted. -/
def save_rules (r : List (String × String)) : List (String × String) := sortByKey r

/-- Model of `RuleEngine.load_rules_from_file` (transformer.py lines 54-87):
the persisted object is parsed back into the rules dictionary as stored. -/
def load_rules (stored : List (String × String)) : List (String × String) := stored

/-- First-match lookup in a rules dictionary. -/
def lookupRule : List (String × String) → String → Option String
  | [], _ => none
  | (k, v) :: r, c => if k = c then some v else lookupRule r c

abbrev KeySorted (l : List (String × String)) : Prop :=
  List.Pairwise (fun a b => a.1 ≤ b.1) l

theorem insertByKey_perm (x : String × String) :
    ∀ (l : List (String × String)), (insertByKey x l).Perm (x :: l) := by
  intro l
  induction l with
  | nil => exact List.Perm.refl _
  | cons y ys ih =>
    simp only [insertByKey]
    by_cases hxy : x.1 ≤ y.1
    · rw [if_pos hxy]
    · rw [if_neg hxy]
      exact List.Perm.trans (List.Perm.cons y ih) (List.Perm.swap x y ys)

theorem sortByKey_perm : ∀ (l : List (String × String)), (sortByKey l).Perm l := by
  intro l
  induction l with
  | nil => exact List.Perm.refl _
  | cons x xs ih =>
    exact List.Perm.trans (insertByKey_perm x (sortByKey xs)) (List.Perm.cons x ih)

theorem insertByKey_sorted (x : String × String) :
    ∀ {l : List (String × String)}, KeySorted l → KeySorted (insertByKey x l) := by
  intro l
  induction l with
  | nil =>
    intro _
    refine List.Pairwise.cons ?_ List.Pairwise.nil
    intro z hz
    simp at hz
  | cons y ys ih =>
    intro h
    obtain ⟨hy, hys⟩ := List.pairwise_cons.mp h
    simp only [insertByKey]
    by_cases hxy : x.1 ≤ y.1
    · rw [if_pos hxy]
      refine List.Pairwise.cons ?_ h
      intro z hz
      rcases List.mem_cons.mp hz with hz | hz
      · rw [hz]
        exact hxy
      · exact le_trans hxy (hy z hz)
    · rw [if_neg hxy]
      have hyx : y.1 ≤ x.1 := le_of_not_le hxy
      refine List.Pairwise.cons ?_ (ih hys)
      intro z hz
      have hz2 : z = x ∨ z ∈ ys :=
        List.mem_cons.mp ((insertByKey_perm x ys).mem_iff.mp hz)
      rcases hz2 with hz2 | hz2
      · rw [hz2]
        exact hyx
      · exact hy z hz2

theorem sortByKey_sorted : ∀ (l : List (String × String)), KeySorted (sortByKey l) := by
  intro l
  induction l with
  | nil => exact List.Pairwise.nil
  | cons x xs ih => exact insertByKey_sorted x ih

theorem sortByKey_of_sorted : ∀ {l : List (String × String)},
    KeySorted l → sortByKey l = l := by
  intro l
  induction l with
  | nil => intro _; rfl
  | cons x xs ih =>
    intro h
    obtain ⟨hx, hxs⟩ := List.pairwise_cons.mp h
    show insertByKey x (sortByKey xs) = x :: xs
    rw [ih hxs]
    cases xs with
    | nil => rfl
    | cons y ys =>
      simp only [insertByKey]
      rw [if_pos (hx y (List.mem_cons_self y ys))]

theorem perm_lookupRule : ∀ {l1 l2 : List (String × String)}, l1.Perm l2 →
    (l1.map Prod.fst).Nodup → ∀ k, lookupRule l1 k = lookupRule l2 k := by
  intro l1 l2 h
  induction h with
  | nil => intro _ k; rfl
  | cons x h ih =>
    intro hnd k
    simp only [List.map_cons, List.nodup_cons] at hnd
    obtain ⟨x1, x2⟩ := x
    simp only [lookupRule]
    by_cases hk : x1 = k
    · rw [if_pos hk, if_pos hk]
    · rw [if_neg hk, if_neg hk]
      exact ih hnd.2 k
  | swap a b l =>
    intro hnd k
    simp only [List.map_cons, List.nodup_cons, List.mem_cons] at hnd
    push_neg at hnd
    obtain ⟨a1, a2⟩ := a
    obtain ⟨b1, b2⟩ := b
    simp only at hnd
    simp only [lookupRule]
    by_cases hb : b1 = k
    · rw [if_pos hb]
      have hab : ¬ a1 = k := fun ha => hnd.1.1 (hb.trans ha.symm)
      rw [if_neg hab, if_pos hb]
    · rw [if_neg hb]
      by_cases ha : a1 = k
      · rw [if_pos ha, if_pos ha]
      · rw [if_neg ha, if_neg ha, if_neg hb]
  | trans h1 h2 ih1 ih2 =>
    intro hnd k
    rw [ih1 hnd k, ih2 ((h1.map Prod.fst).nodup hnd) k]

/-- C3: for a RuleSet with unique output-field names, saving it and loading
it back preserves all entries (the loaded set is a permutation of the
original, with keys in sorted order), is equal to the original as a mapping
(the program's dictionary equality: same value at every key), and the round
trip is idempotent (saving the loaded set reproduces the stored object). -/
theorem C3_rules_round_trip (r : List (String × String))
    (_hne : r ≠ []) (hnd : (r.map Prod.fst).Nodup) :
    (load_rules (save_rules r)).Perm r
    ∧ (∀ k, lookupRule (load_rules (save_rules r)) k = lookupRule r k)
    ∧ save_rules (load_rules (save_rules r)) = save_rules r := by
  have hperm : (sortByKey r).Perm r := sortByKey_perm r
  refine ⟨hperm, ?_, sortByKey_of_sorted (sortByKey_sorted r)⟩
  intro k
  have hnd2 : ((sortByKey r).map Prod.fst).Nodup :=
    (hperm.map Prod.fst).symm.nodup hnd
  exact perm_lookupRule hperm hnd2 k

def rulesC3 : List (String × String) := [("outfield2", "refdata1"), ("outfield1", "f1 + f2")]

/-- Witness for C3 at a concrete two-entry RuleSet whose stored order is
re-sorted. -/
theorem C3_rules_round_trip_witness :
    rulesC3 ≠ []
    ∧ (rulesC3.map Prod.fst).Nodup
    ∧ ((load_rules (save_rules rulesC3)).Perm rulesC3
    ∧ (∀ k, lookupRule (load_rules (save_rules rulesC3)) k = lookupRule rulesC3 k)
    ∧ save_rules (load_rules (save_rules rulesC3)) = save_rules rulesC3) :=
  ⟨by decide, by decide, C3_rules_round_trip rulesC3 (by decide) (by decide)⟩
